import Mathlib

/-!
Verification of the NHX (New Hampshire Extended / Newick) parser `src/nhx.js`.

Strings are modelled as `List Char`.  JavaScript numbers produced by
`parseFloat` are modelled exactly: `JsNum` is NaN, a signed infinity, or the
exact rational value of the accepted decimal prefix.  JavaScript objects
(the parser attaches dynamic NHX tag properties to nodes) are modelled as
insertion-ordered association lists `List (Str × TVal)`; property assignment
(`jsSet`) overwrites in place or appends, matching JS object semantics.

The tokenizer of the source mutates a `parent` back-reference and a
`prevNode` reference.  Here it is a stack of open contexts: each `(` pushes
the current children list, each `)` pops and appends the closed node to its
parent's children.  The `prevNode.text = text` mutation is performed on the
last element of the current children list, which is where the just-closed
node sits whenever the character before the live text span is `)` (the only
situation in which the source dereferences `prevNode`).  Situations in which
the source raises a TypeError (popping past the synthetic root, a `prevNode`
dereference while it is still null, or returning `undefined` into
`deleteParentAttr`) are modelled as `Except.error ()`.
-/

namespace Nhx

abbrev Str := List Char

/-- Result of JavaScript `parseFloat`: NaN, a signed infinity, or a finite
value (kept as the exact rational of the accepted decimal text). -/
inductive JsNum where
  | nan : JsNum
  | inf : Bool → JsNum
  | num : ℚ → JsNum
deriving DecidableEq

/-- Decimal digit string to a natural number, most significant digit first. -/
def digitsToNat (s : Str) : Nat :=
  s.foldl (fun n c => 10 * n + (c.toNat - '0'.toNat)) 0

/-- JavaScript string whitespace (the ASCII portion; `parseFloat` skips it). -/
def isWS (c : Char) : Bool :=
  c = ' ' || c = '\t' || c = '\n' || c = '\r' || c = Char.ofNat 11 || c = Char.ofNat 12

/-- Exponent part of a decimal literal: optional sign then leading digits.
JavaScript takes the longest valid prefix, so missing digits mean the
exponent marker is not part of the number and the factor is `10 ^ 0`. -/
def parseExp (u : Str) : Int :=
  match u with
  | '-' :: d => -(digitsToNat (d.takeWhile Char.isDigit) : Int)
  | '+' :: d => (digitsToNat (d.takeWhile Char.isDigit) : Int)
  | d => (digitsToNat (d.takeWhile Char.isDigit) : Int)

/-- `parseFloat` after the optional sign: `Infinity`, or the longest prefix
of the form `digits [. digits] [e|E exponent]`; NaN when no digit occurs. -/
def parseFloatBody (t : Str) (neg : Bool) : JsNum :=
  if "Infinity".toList.isPrefixOf t then .inf neg
  else
    let intPart := t.takeWhile Char.isDigit
    let rest := t.dropWhile Char.isDigit
    let fracPart := match rest with
      | '.' :: u => u.takeWhile Char.isDigit
      | _ => []
    let rest2 := match rest with
      | '.' :: u => u.dropWhile Char.isDigit
      | _ => rest
    if intPart = [] ∧ fracPart = [] then .nan
    else
      let sgn : Int := if neg then -1 else 1
      let m : Nat := digitsToNat intPart * 10 ^ fracPart.length + digitsToNat fracPart
      let e : Int := match rest2 with
        | 'e' :: u => parseExp u
        | 'E' :: u => parseExp u
        | _ => 0
      .num (if 0 ≤ e
        then mkRat (sgn * ((m * 10 ^ e.toNat : Nat) : Int)) (10 ^ fracPart.length)
        else mkRat (sgn * (m : Int)) (10 ^ fracPart.length * 10 ^ (-e).toNat))

/-- JavaScript `parseFloat`: skip leading whitespace, optional sign, then the
longest numeric prefix. -/
def parseFloat (s : Str) : JsNum :=
  match s.dropWhile isWS with
  | '-' :: t => parseFloatBody t true
  | '+' :: t => parseFloatBody t false
  | t => parseFloatBody t false

/-- Source `appendBoundaries`, first replace: `text.replace(/\)/g, ',)')`
inserts a comma before every closing parenthesis. -/
def insertCommas : Str → Str
  | [] => []
  | c :: rest => if c = ')' then ',' :: ')' :: insertCommas rest else c :: insertCommas rest

/-- Source `appendBoundaries`, second replace: `text.replace(/;$/, ',')`
turns a final semicolon into a comma (anchored at end of string). -/
def replaceTrailingSemi (s : Str) : Str :=
  if s.getLast? = some ';' then s.dropLast ++ [','] else s

/-- Source `appendBoundaries`: both replacements in order. -/
def appendBoundaries (s : Str) : Str :=
  replaceTrailingSemi (insertCommas s)

/-- Modelled from the spec (§4.1 contract), for comparison with the code's
`appendBoundaries`: every `)` of the input gets a comma inserted before it,
the trailing `;` of the input (when it is the last character) is replaced by
a comma, all other characters unchanged and in order. -/
def appendBoundariesSpec (s : Str) : Str :=
  if s.getLast? = some ';' then insertCommas s.dropLast ++ [','] else insertCommas s

/-- Raw tree produced by `tokenize`: a `leaf` is an object `{text: t}`
pushed at a comma (it has no `branchset` property); a `node` is an object
created at `(` with a `branchset` and, optionally, a `text` assigned later
through `prevNode`.  The transient `parent` back-reference of the source is
represented by the tokenizer's stack instead of a field. -/
inductive RawNode where
  | leaf : Str → RawNode
  | node : List RawNode → Option Str → RawNode

/-- Tokenizer state: `stack` holds the children lists of the open ancestor
contexts (innermost first), `cur` the children of the current context,
`textBegin` and `inNhx` as in the source. -/
structure TkState where
  stack : List (List RawNode)
  cur : List RawNode
  textBegin : Nat
  inNhx : Bool

/-- The `prevNode.text = text` assignment of the source, applied to the node
object itself. -/
def setText : RawNode → Str → RawNode
  | .leaf _, t => .leaf t
  | .node b _, t => .node b (some t)

/-- One iteration of the tokenizer's scan loop (the `switch` of the source)
at index `i` of the full string `orig`.  `str.substr(textBegin - 1, 1)` with
`textBegin = 0` is JavaScript `substr(-1, 1)`, i.e. the last character of
the whole string; in that situation `prevNode` is still null and the
assignment `prevNode.text` raises, modelled by `.error ()`.  Popping past
the synthetic root makes `current` undefined in the source, after which the
call can only end in a TypeError, modelled eagerly by `.error ()`. -/
def tokStep (orig : Str) (i : Nat) (c : Char) (st : TkState) : Except Unit TkState :=
  if c = '(' then
    .ok { stack := st.cur :: st.stack, cur := [], textBegin := i + 1, inNhx := st.inNhx }
  else if c = ')' then
    match st.stack with
    | [] => .error ()
    | parentCur :: rest =>
      .ok { stack := rest, cur := parentCur ++ [RawNode.node st.cur none],
            textBegin := i + 1, inNhx := st.inNhx }
  else if c = ',' then
    if st.inNhx then .ok st
    else
      let text := (orig.drop st.textBegin).take (i - st.textBegin)
      let before : Option Char :=
        if st.textBegin = 0 then orig.getLast? else orig[st.textBegin - 1]?
      if before = some ')' then
        if st.textBegin = 0 then .error ()
        else
          match st.cur.getLast? with
          | none => .error ()
          | some last =>
            .ok { st with cur := st.cur.dropLast ++ [setText last text], textBegin := i + 1 }
      else .ok { st with cur := st.cur ++ [RawNode.leaf text], textBegin := i + 1 }
  else if c = '[' then .ok { st with inNhx := true }
  else if c = ']' then .ok { st with inNhx := false }
  else .ok st

/-- The tokenizer's scan loop over the remaining characters, `i` being the
index of the first of them in `orig`. -/
def tokRun (orig : Str) : Nat → Str → TkState → Except Unit TkState
  | _, [], st => .ok st
  | i, c :: rest, st =>
    match tokStep orig i c st with
    | .error e => .error e
    | .ok st' => tokRun orig (i + 1) rest st'

/-- Source `tokenize`: scan the whole string starting from the synthetic
root context, then return `current.branchset[0]` (`none` = `undefined`). -/
def tokenize (s : Str) : Except Unit (Option RawNode) :=
  match tokRun s 0 s ⟨[], [], 0, false⟩ with
  | .error e => .error e
  | .ok st => .ok st.cur.head?

/-- Source `deleteParentAttr`: removes the transient `parent` links.  The
model has no parent fields (the stack plays that role), so the traversal
returns the node unchanged; the TypeError it raises on `undefined` input is
handled at the `parse` level. -/
def deleteParentAttr (n : RawNode) : RawNode := n

/-- JavaScript values that can sit in a translated node's properties:
strings (NHX tag values, names), numbers (lengths), `undefined`, arrays
(branchsets) and objects (the nodes themselves). -/
inductive TVal where
  | vstr : Str → TVal
  | vnum : JsNum → TVal
  | vundef : TVal
  | varr : List TVal → TVal
  | vobj : List (Str × TVal) → TVal

abbrev Fields := List (Str × TVal)

/-- JavaScript property assignment `obj[k] = v`: overwrite in place if the
key exists (keeping its position), otherwise append. -/
def jsSet : Fields → Str → TVal → Fields
  | [], k, v => [(k, v)]
  | (k', v') :: rest, k, v =>
    if k' = k then (k', v) :: rest else (k', v') :: jsSet rest k v

/-- JavaScript property read `obj[k]`. -/
def lookupField : Fields → Str → Option TVal
  | [], _ => none
  | (k', v') :: rest, k => if k' = k then some v' else lookupField rest k

/-- Property read on a node value. -/
def getField : TVal → Str → Option TVal
  | .vobj fs, k => lookupField fs k
  | _, _ => none

/-- JavaScript `String.split` with a single-character separator. -/
def splitChar (c : Char) : Str → List Str
  | [] => [[]]
  | x :: xs =>
    if x = c then [] :: splitChar c xs
    else
      match splitChar c xs with
      | r :: rs => (x :: r) :: rs
      | [] => [[x]]

/-- JavaScript `String.indexOf` for a substring: index of the leftmost
occurrence. -/
def indexOfSub (sep : Str) : Str → Option Nat
  | [] => if sep.isPrefixOf [] then some 0 else none
  | c :: t => if sep.isPrefixOf (c :: t) then some 0 else (indexOfSub sep t).map (· + 1)

/-- JavaScript `String.split` with a multi-character separator, cutting at
each leftmost non-overlapping occurrence.  The fuel argument bounds the
number of cuts; `length + 1` always suffices because the separator used here
is nonempty, so every cut consumes at least one character. -/
def splitSubFuel (sep : Str) : Nat → Str → List Str
  | 0, s => [s]
  | fuel + 1, s =>
    match indexOfSub sep s with
    | none => [s]
    | some i => s.take i :: splitSubFuel sep fuel (s.drop (i + sep.length))

/-- JavaScript `text.split(sep)` for the NHX marker. -/
def splitSub (sep s : Str) : List Str := splitSubFuel sep (s.length + 1) s

def nhxMarker : Str := "[&&NHX:".toList

def nameKey : Str := "name".toList

def lengthKey : Str := "length".toList

def branchsetKey : Str := "branchset".toList

/-- Source `translateNode`, first step: `node.text.replace(/]$/g, '')`
removes a single trailing `]`. -/
def stripTrailingBracket (s : Str) : Str :=
  if s.getLast? = some ']' then s.dropLast else s

/-- Source `setNameAndLength`: split the label part on `:`; `parts[1]` is
the segment between the first and second colon, fed to `parseFloat`. -/
def setNameAndLength (fields : Fields) (s : Str) : Fields :=
  if ':' ∈ s then
    let parts := splitChar ':' s
    jsSet (jsSet fields nameKey (.vstr (parts.getD 0 [])))
      lengthKey (.vnum (parseFloat (parts.getD 1 [])))
  else if s ≠ [] then
    jsSet (jsSet fields nameKey (.vstr s)) lengthKey (.vnum (.num 0))
  else
    jsSet (jsSet fields nameKey (.vstr [])) lengthKey (.vnum (.num 0))

/-- One `kv` pair of source `setNhxAttrs`: `kv = kv.split('='); node[kv[0]]
= kv[1]`.  `kv[1]` is the segment between the first and second `=`, and is
`undefined` when the pair has no `=`. -/
def applyTagPair (fields : Fields) (kv : Str) : Fields :=
  let parts := splitChar '=' kv
  jsSet fields (parts.getD 0 [])
    (match parts.get? 1 with
     | some v => TVal.vstr v
     | none => TVal.vundef)

/-- Source `setNhxAttrs`: nothing on empty text, otherwise split the
attribute part on `:` and assign each pair onto the node. -/
def setNhxAttrs (fields : Fields) (text : Str) : Fields :=
  if text = [] then fields
  else (splitChar ':' text).foldl applyTagPair fields

/-- Text-span part of source `translateNode`: strip one trailing `]`, split
on the NHX marker when present (`parts[1]` is the segment between the first
and second marker), set name/length from the label part and then merge the
NHX tags. -/
def processText (fields : Fields) (t : Str) : Fields :=
  let text := stripTrailingBracket t
  if (indexOfSub nhxMarker text).isSome then
    let parts := splitSub nhxMarker text
    setNhxAttrs (setNameAndLength fields (parts.getD 0 [])) (parts.getD 1 [])
  else setNameAndLength fields text

mutual
/-- Source `translateNode`: translate the branchset first (when the node
has one), then consume the node's raw text.  A node with a branchset and no
text keeps only its branchset. -/
def translateNode : RawNode → TVal
  | .leaf t => .vobj (processText [] t)
  | .node cs t =>
    let tcs := translateList cs
    match t with
    | some text => .vobj (processText [(branchsetKey, TVal.varr tcs)] text)
    | none => .vobj [(branchsetKey, TVal.varr tcs)]
def translateList : List RawNode → List TVal
  | [] => []
  | c :: cs => translateNode c :: translateList cs
end

/-- Source `parse`: normalize boundaries, tokenize, delete the parent
links, translate.  When `tokenize` yields `undefined` (empty branchset of
the final context) the call to `deleteParentAttr(undefined)` raises a
TypeError in the source, modelled by `.error ()`. -/
def parse (s : Str) : Except Unit TVal :=
  match tokenize (appendBoundaries s) with
  | .error e => .error e
  | .ok none => .error ()
  | .ok (some root) => .ok (translateNode (deleteParentAttr root))

/-- Number of closing parentheses in a string. -/
def closeCount : Str → Nat
  | [] => 0
  | c :: r => (if c = ')' then 1 else 0) + closeCount r

/-- A character the tokenizer's switch ignores entirely. -/
def plainChar (c : Char) : Prop :=
  c ≠ '(' ∧ c ≠ ')' ∧ c ≠ ',' ∧ c ≠ '[' ∧ c ≠ ']'

mutual
/-- Label text as the tokenizer sees it: ordinary characters (anything but
the five structural characters) interleaved with closed bracket groups
(NHX comments), inside which commas are literal.  `labelOk` accepts such a
label; `groupOk` accepts the remainder of a label while inside a bracket
group (parentheses are structural even inside a group in the source, so
they are excluded there too). -/
def labelOk : Str → Bool
  | [] => true
  | c :: t =>
    if c = '[' then groupOk t
    else if c = '(' ∨ c = ')' ∨ c = ',' ∨ c = ']' then false
    else labelOk t
def groupOk : Str → Bool
  | [] => false
  | c :: t =>
    if c = ']' then labelOk t
    else if c = '(' ∨ c = ')' ∨ c = '[' then false
    else groupOk t
end

mutual
/-- Syntax of one top-level Newick/NHX entry: a bare label (name, length
and NHX comment all live in the label text), or a parenthesized branchset
of one or more entries followed by a trailing label. -/
inductive Entry where
  | leaf : Str → Entry
  | node : EntryList → Str → Entry
inductive EntryList where
  | single : Entry → EntryList
  | cons : Entry → EntryList → EntryList
end

mutual
/-- The concrete text of an entry, and of comma-separated entries. -/
def renderEntry : Entry → Str
  | .leaf s => s
  | .node es lab => '(' :: (renderEntries es ++ ')' :: lab)
def renderEntries : EntryList → Str
  | .single e => renderEntry e
  | .cons e es => renderEntry e ++ ',' :: renderEntries es
end

mutual
/-- Well-formedness of an entry: every label in it satisfies `labelOk`. -/
def wfEntry : Entry → Bool
  | .leaf s => labelOk s
  | .node es lab => wfEntries es && labelOk lab
def wfEntries : EntryList → Bool
  | .single e => wfEntry e
  | .cons e es => wfEntry e && wfEntries es
end

mutual
/-- The raw node the tokenizer builds for one entry, and the children list
it builds for a branchset. -/
def entryRaw : Entry → RawNode
  | .leaf s => .leaf s
  | .node es lab => .node (entryRawList es) (some lab)
def entryRawList : EntryList → List RawNode
  | .single e => [entryRaw e]
  | .cons e es => entryRaw e :: entryRawList es
end

/-! Helper lemmas. -/

theorem insertCommas_append (a b : Str) :
    insertCommas (a ++ b) = insertCommas a ++ insertCommas b := by
  induction a with
  | nil => simp [insertCommas]
  | cons c t ih => by_cases h : c = ')' <;> simp [insertCommas, h, ih]

theorem insertCommas_of_not_mem {s : Str} (h : ')' ∉ s) : insertCommas s = s := by
  induction s with
  | nil => rfl
  | cons c t ih =>
    simp only [List.mem_cons, not_or] at h
    simp [insertCommas, Ne.symm h.1, ih h.2]

theorem closeCount_append (a b : Str) : closeCount (a ++ b) = closeCount a + closeCount b := by
  induction a with
  | nil => simp [closeCount]
  | cons c t ih => simp [closeCount, ih]; omega

theorem closeCount_pos {s : Str} (h : ')' ∈ s) : 0 < closeCount s := by
  induction s with
  | nil => simp at h
  | cons c t ih =>
    rcases List.mem_cons.mp h with h1 | h2
    · simp [closeCount, ← h1]
    · have := ih h2
      simp [closeCount]; omega

theorem length_insertCommas (s : Str) : (insertCommas s).length = s.length + closeCount s := by
  induction s with
  | nil => rfl
  | cons c t ih => by_cases h : c = ')' <;> simp [insertCommas, closeCount, h, ih] <;> omega

theorem closeCount_insertCommas (s : Str) : closeCount (insertCommas s) = closeCount s := by
  induction s with
  | nil => rfl
  | cons c t ih => by_cases h : c = ')' <;> simp [insertCommas, closeCount, h, ih]

theorem length_replaceTrailingSemi (s : Str) : (replaceTrailingSemi s).length = s.length := by
  unfold replaceTrailingSemi
  split
  · rename_i h
    have h2 := List.dropLast_append_getLast? ';' h
    conv_rhs => rw [← h2]
    simp
  · rfl

theorem closeCount_replaceTrailingSemi (s : Str) :
    closeCount (replaceTrailingSemi s) = closeCount s := by
  unfold replaceTrailingSemi
  split
  · rename_i h
    have h2 := List.dropLast_append_getLast? ';' h
    conv_rhs => rw [← h2]
    rw [closeCount_append, closeCount_append]
    rfl
  · rfl

theorem length_appendBoundaries (s : Str) :
    (appendBoundaries s).length = s.length + closeCount s := by
  unfold appendBoundaries
  rw [length_replaceTrailingSemi, length_insertCommas]

theorem closeCount_appendBoundaries (s : Str) :
    closeCount (appendBoundaries s) = closeCount s := by
  unfold appendBoundaries
  rw [closeCount_replaceTrailingSemi, closeCount_insertCommas]

/-! Claims about the input normalizer. -/

/-- C2: for every input string, `appendBoundaries` produces exactly the
string described by the spec's contract: a comma inserted before every `)`
of the input, the trailing `;` of the input (when it is the last character)
replaced by a comma, and every other character unchanged and in order
(`appendBoundariesSpec` is that description, written from the spec). -/
theorem appendBoundaries_eq_spec (s : Str) : appendBoundaries s = appendBoundariesSpec s := by
  rcases List.eq_nil_or_concat s with rfl | ⟨t, c, rfl⟩
  · rfl
  · simp only [List.concat_eq_append]
    unfold appendBoundaries appendBoundariesSpec replaceTrailingSemi
    rw [insertCommas_append]
    have hone : ∃ p, insertCommas [c] = p ++ [c] := by
      by_cases h : c = ')'
      · exact ⟨[','], by simp [insertCommas, h]⟩
      · exact ⟨[], by simp [insertCommas, h]⟩
    obtain ⟨p, hp⟩ := hone
    rw [hp, List.getLast?_concat, ← List.append_assoc, List.getLast?_concat]
    by_cases hc : c = ';'
    · subst hc
      have hpnil : p = [] := by
        have hic : insertCommas [';'] = [';'] := by simp [insertCommas]
        rw [hic] at hp
        have hlen := congrArg List.length hp
        simp at hlen
        exact hlen
      subst hpnil
      simp [List.dropLast_concat]
    · rw [if_neg (by simp [hc]), if_neg (by simp [hc]), List.append_assoc, ← hp]

/-- C8: the boundary normalizer is not idempotent: for every string that
contains a `)`, normalizing its own output differs from normalizing once
(the second pass inserts a second comma before each `)`). -/
theorem appendBoundaries_not_idempotent {s : Str} (h : ')' ∈ s) :
    appendBoundaries (appendBoundaries s) ≠ appendBoundaries s := by
  intro heq
  have hlen := congrArg List.length heq
  rw [length_appendBoundaries, length_appendBoundaries, closeCount_appendBoundaries] at hlen
  have := closeCount_pos h
  omega

/-- Witness for C8 at the concrete input `")"`. -/
theorem appendBoundaries_not_idempotent_witness :
    appendBoundaries (appendBoundaries [')']) ≠ appendBoundaries [')'] :=
  appendBoundaries_not_idempotent (by decide)

/-! Tokenizer lemmas. -/

theorem tokStep_plain (orig : Str) (i : Nat) (st : TkState) {c : Char} (h : plainChar c) :
    tokStep orig i c st = .ok st := by
  obtain ⟨h1, h2, h3, h4, h5⟩ := h
  simp [tokStep, h1, h2, h3, h4, h5]

theorem tokRun_append (orig xs ys : Str) :
    ∀ (i : Nat) (st : TkState),
      tokRun orig i (xs ++ ys) st =
        match tokRun orig i xs st with
        | .error e => .error e
        | .ok st' => tokRun orig (i + xs.length) ys st' := by
  induction xs with
  | nil => intro i st; simp [tokRun]
  | cons c t ih =>
    intro i st
    rw [List.cons_append, tokRun, tokRun]
    cases tokStep orig i c st with
    | error e => rfl
    | ok st' =>
      simp only []
      rw [ih (i + 1) st']
      cases tokRun orig (i + 1) t st' with
      | error e => rfl
      | ok st'' =>
        simp only [List.length_cons]
        rw [show i + 1 + t.length = i + (t.length + 1) from by omega]

theorem getElem?_append_cons (u : Str) (x : Char) (w : Str) :
    (u ++ x :: w)[u.length]? = some x := by
  induction u with
  | nil => simp
  | cons c t ih => simpa using ih

theorem drop_length_append (u w : Str) : (u ++ w).drop u.length = w := by
  induction u with
  | nil => rfl
  | cons x t ih => simp [ih]

theorem span_extract (u s w : Str) : ((u ++ (s ++ w)).drop u.length).take s.length = s := by
  rw [drop_length_append]
  exact List.take_left ..

theorem tokStep_open (orig : Str) (i : Nat) (stk : List (List RawNode)) (cur : List RawNode)
    (tb : Nat) (b : Bool) :
    tokStep orig i '(' ⟨stk, cur, tb, b⟩ = .ok ⟨cur :: stk, [], i + 1, b⟩ := by
  simp [tokStep]

theorem tokStep_close (orig : Str) (i : Nat) (parentCur : List RawNode)
    (stk : List (List RawNode)) (cur : List RawNode) (tb : Nat) (b : Bool) :
    tokStep orig i ')' ⟨parentCur :: stk, cur, tb, b⟩ =
      .ok ⟨stk, parentCur ++ [RawNode.node cur none], i + 1, b⟩ := by
  simp [tokStep]

theorem tokStep_lbrack (orig : Str) (i : Nat) (st : TkState) :
    tokStep orig i '[' st = .ok { st with inNhx := true } := by
  simp [tokStep]

theorem tokStep_rbrack (orig : Str) (i : Nat) (st : TkState) :
    tokStep orig i ']' st = .ok { st with inNhx := false } := by
  simp [tokStep]

theorem tokStep_group_char (orig : Str) (i : Nat) (st : TkState) {c : Char}
    (hn : st.inNhx = true) (h1 : c ≠ '(') (h2 : c ≠ ')') (h4 : c ≠ '[') (h5 : c ≠ ']') :
    tokStep orig i c st = .ok st := by
  by_cases hc : c = ','
  · subst hc
    simp [tokStep, hn]
  · exact tokStep_plain orig i st ⟨h1, h2, hc, h4, h5⟩

theorem tokStep_comma_push (orig : Str) (i : Nat) (stk : List (List RawNode))
    (cur : List RawNode) (tb : Nat)
    (hbef : (if tb = 0 then orig.getLast? else orig[tb - 1]?) ≠ some ')') :
    tokStep orig i ',' ⟨stk, cur, tb, false⟩ =
      .ok ⟨stk, cur ++ [RawNode.leaf ((orig.drop tb).take (i - tb))], i + 1, false⟩ := by
  simp [tokStep, hbef]

theorem tokStep_comma_after_close (orig : Str) (i : Nat) (stk : List (List RawNode))
    (cur : List RawNode) (n : RawNode) (tb : Nat) (htb : tb ≠ 0)
    (hbef : orig[tb - 1]? = some ')') :
    tokStep orig i ',' ⟨stk, cur ++ [n], tb, false⟩ =
      .ok ⟨stk, cur ++ [setText n ((orig.drop tb).take (i - tb))], i + 1, false⟩ := by
  simp [tokStep, htb, hbef, List.getLast?_concat, List.dropLast_concat]

theorem tokRun_labelOrGroup (orig : Str) : ∀ (xs : Str) (mode : Bool),
    cond mode (groupOk xs) (labelOk xs) = true →
    ∀ (i : Nat) (st : TkState), st.inNhx = mode →
    tokRun orig i xs st = .ok ⟨st.stack, st.cur, st.textBegin, false⟩ := by
  intro xs
  induction xs with
  | nil =>
    intro mode hok i st hst
    cases mode
    · cases st
      simp_all [tokRun]
    · simp [groupOk] at hok
  | cons c t ih =>
    intro mode hok i st hst
    cases mode
    · simp only [Bool.cond_false, labelOk] at hok
      by_cases hc : c = '['
      · subst hc
        rw [if_pos rfl] at hok
        rw [tokRun, tokStep_lbrack]
        simp only []
        exact ih true (by simpa using hok) (i + 1) { st with inNhx := true } rfl
      · rw [if_neg hc] at hok
        by_cases hbad : c = '(' ∨ c = ')' ∨ c = ',' ∨ c = ']'
        · rw [if_pos hbad] at hok
          exact absurd hok (by simp)
        · rw [if_neg hbad] at hok
          push_neg at hbad
          obtain ⟨h1, h2, h3, h5⟩ := hbad
          rw [tokRun, tokStep_plain orig i st ⟨h1, h2, h3, hc, h5⟩]
          simp only []
          exact ih false (by simpa using hok) (i + 1) st hst
    · simp only [Bool.cond_true, groupOk] at hok
      by_cases hc : c = ']'
      · subst hc
        rw [if_pos rfl] at hok
        rw [tokRun, tokStep_rbrack]
        simp only []
        exact ih false (by simpa using hok) (i + 1) { st with inNhx := false } rfl
      · rw [if_neg hc] at hok
        by_cases hbad : c = '(' ∨ c = ')' ∨ c = '['
        · rw [if_pos hbad] at hok
          exact absurd hok (by simp)
        · rw [if_neg hbad] at hok
          push_neg at hbad
          obtain ⟨h1, h2, h4⟩ := hbad
          rw [tokRun, tokStep_group_char orig i st hst h1 h2 h4 hc]
          simp only []
          exact ih true (by simpa using hok) (i + 1) st hst

theorem tokRun_label (orig : Str) {xs : Str} (h : labelOk xs = true) (i : Nat) (st : TkState)
    (hst : st.inNhx = false) : tokRun orig i xs st = .ok st := by
  rw [tokRun_labelOrGroup orig xs false (by simpa using h) i st hst]
  cases st
  simp_all

theorem labelOrGroup_no_close : ∀ (xs : Str) (mode : Bool),
    cond mode (groupOk xs) (labelOk xs) = true → ')' ∉ xs := by
  intro xs
  induction xs with
  | nil =>
    intro mode _
    simp
  | cons c t ih =>
    intro mode hok
    simp only [List.mem_cons, not_or]
    cases mode
    · simp only [Bool.cond_false, labelOk] at hok
      by_cases hc : c = '['
      · subst hc
        rw [if_pos rfl] at hok
        exact ⟨by decide, ih true (by simpa using hok)⟩
      · rw [if_neg hc] at hok
        by_cases hbad : c = '(' ∨ c = ')' ∨ c = ',' ∨ c = ']'
        · rw [if_pos hbad] at hok
          exact absurd hok (by simp)
        · rw [if_neg hbad] at hok
          push_neg at hbad
          exact ⟨Ne.symm hbad.2.1, ih false (by simpa using hok)⟩
    · simp only [Bool.cond_true, groupOk] at hok
      by_cases hc : c = ']'
      · subst hc
        rw [if_pos rfl] at hok
        exact ⟨by decide, ih false (by simpa using hok)⟩
      · rw [if_neg hc] at hok
        by_cases hbad : c = '(' ∨ c = ')' ∨ c = '['
        · rw [if_pos hbad] at hok
          exact absurd hok (by simp)
        · rw [if_neg hbad] at hok
          push_neg at hbad
          exact ⟨Ne.symm hbad.2.1, ih true (by simpa using hok)⟩

theorem labelOk_no_close {s : Str} (h : labelOk s = true) : ')' ∉ s :=
  labelOrGroup_no_close s false (by simpa using h)

theorem insertCommas_cons_of_ne {c : Char} (h : c ≠ ')') (s : Str) :
    insertCommas (c :: s) = c :: insertCommas s := by
  simp [insertCommas, h]

theorem insertCommas_cons_close (s : Str) :
    insertCommas (')' :: s) = ',' :: ')' :: insertCommas s := by
  simp [insertCommas]

theorem scan_node_shape (orig pre suf lab ICR : Str) (stk : List (List RawNode))
    (cur : List RawNode) (children : List RawNode)
    (hlab : labelOk lab = true)
    (horig : orig = pre ++ (('(' :: (ICR ++ ',' :: ')' :: lab)) ++ ',' :: suf))
    (hscan : tokRun orig (pre.length + 1) (ICR ++ [','])
        ⟨cur :: stk, [], pre.length + 1, false⟩ =
      .ok ⟨cur :: stk, children, pre.length + 1 + ICR.length + 1, false⟩) :
    tokRun orig pre.length (('(' :: (ICR ++ ',' :: ')' :: lab)) ++ [','])
        ⟨stk, cur, pre.length, false⟩ =
      .ok ⟨stk, cur ++ [RawNode.node children (some lab)],
        pre.length + ('(' :: (ICR ++ ',' :: ')' :: lab)).length + 1, false⟩ := by
  rw [show (('(' :: (ICR ++ ',' :: ')' :: lab)) ++ [','] : Str) =
      '(' :: ((ICR ++ [',']) ++ (')' :: (lab ++ [',']))) from by simp]
  rw [tokRun, tokStep_open]
  simp only []
  rw [tokRun_append, hscan]
  simp only []
  rw [show pre.length + 1 + (ICR ++ ([','] : Str)).length = pre.length + ICR.length + 2
    from by simp; omega]
  rw [tokRun, tokStep_close]
  simp only []
  rw [tokRun_append]
  rw [tokRun_label orig hlab (pre.length + ICR.length + 2 + 1)
    ⟨stk, cur ++ [RawNode.node children none], pre.length + ICR.length + 2 + 1, false⟩ rfl]
  simp only []
  have hbefr : orig[(pre.length + ICR.length + 2 + 1) - 1]? = some ')' := by
    rw [show pre.length + ICR.length + 2 + 1 - 1 = (pre ++ '(' :: (ICR ++ [','])).length
      from by simp; omega]
    rw [horig]
    rw [show pre ++ (('(' :: (ICR ++ ',' :: ')' :: lab)) ++ ',' :: suf) =
        (pre ++ '(' :: (ICR ++ [','])) ++ ')' :: (lab ++ ',' :: suf) from by simp]
    exact getElem?_append_cons ..
  rw [tokRun, tokStep_comma_after_close orig (pre.length + ICR.length + 2 + 1 + lab.length) stk
    cur (RawNode.node children none) (pre.length + ICR.length + 2 + 1) (by omega) hbefr]
  simp only []
  have htext : (orig.drop (pre.length + ICR.length + 2 + 1)).take
      (pre.length + ICR.length + 2 + 1 + lab.length - (pre.length + ICR.length + 2 + 1)) =
      lab := by
    rw [show pre.length + ICR.length + 2 + 1 + lab.length - (pre.length + ICR.length + 2 + 1) =
      lab.length from by omega]
    rw [horig]
    rw [show pre ++ (('(' :: (ICR ++ ',' :: ')' :: lab)) ++ ',' :: suf) =
        (pre ++ '(' :: (ICR ++ [','] ++ [')'])) ++ (lab ++ ',' :: suf) from by simp]
    rw [show pre.length + ICR.length + 2 + 1 = (pre ++ '(' :: (ICR ++ [','] ++ [')'])).length
      from by simp; omega]
    exact span_extract ..
  rw [htext]
  rw [show pre.length + ICR.length + 2 + 1 + lab.length + 1 =
      pre.length + ('(' :: (ICR ++ ',' :: ')' :: lab)).length + 1 from by simp; omega]
  rfl

mutual

theorem scan_entry : ∀ (e : Entry), wfEntry e = true →
    ∀ (orig pre suf : Str) (stk : List (List RawNode)) (cur : List RawNode),
    orig = pre ++ (insertCommas (renderEntry e) ++ ',' :: suf) →
    ((if pre.length = 0 then orig.getLast? else orig[pre.length - 1]?) ≠ some ')') →
    tokRun orig pre.length (insertCommas (renderEntry e) ++ [','])
        ⟨stk, cur, pre.length, false⟩ =
      .ok ⟨stk, cur ++ [entryRaw e],
        pre.length + (insertCommas (renderEntry e)).length + 1, false⟩
  | .leaf s => by
    intro hw orig pre suf stk cur horig hbef
    have hlab : labelOk s = true := hw
    have hic : insertCommas (renderEntry (Entry.leaf s)) = s :=
      insertCommas_of_not_mem (labelOk_no_close hlab)
    rw [hic] at horig ⊢
    rw [tokRun_append orig s [','] pre.length ⟨stk, cur, pre.length, false⟩]
    rw [tokRun_label orig hlab pre.length ⟨stk, cur, pre.length, false⟩ rfl]
    simp only []
    have htext : (orig.drop pre.length).take (pre.length + s.length - pre.length) = s := by
      rw [show pre.length + s.length - pre.length = s.length from by omega]
      rw [horig]
      exact span_extract pre s (',' :: suf)
    rw [tokRun, tokStep_comma_push orig (pre.length + s.length) stk cur pre.length hbef, htext]
    rfl
  | .node es lab => by
    intro hw orig pre suf stk cur horig hbef
    have hpair : wfEntries es = true ∧ labelOk lab = true := by simpa [wfEntry] using hw
    have hwes : wfEntries es = true := hpair.1
    have hwlab : labelOk lab = true := hpair.2
    have hic : insertCommas (renderEntry (Entry.node es lab)) =
        '(' :: (insertCommas (renderEntries es) ++ ',' :: ')' :: lab) := by
      show insertCommas ('(' :: (renderEntries es ++ ')' :: lab)) = _
      rw [insertCommas_cons_of_ne (by decide), insertCommas_append, insertCommas_cons_close,
        insertCommas_of_not_mem (labelOk_no_close hwlab)]
    rw [hic] at horig ⊢
    refine scan_node_shape orig pre suf lab (insertCommas (renderEntries es)) stk cur
      (entryRawList es) hwlab horig ?_
    have h2 := scan_entries es hwes orig (pre ++ ['(']) (')' :: (lab ++ ',' :: suf))
      (cur :: stk) []
      (by rw [horig]; simp)
      (by
        rw [if_neg (by simp : ¬((pre ++ ['(']).length = 0))]
        rw [show (pre ++ (['('] : Str)).length - 1 = pre.length from by simp]
        rw [horig]
        rw [show pre ++ (('(' :: (insertCommas (renderEntries es) ++ ',' :: ')' :: lab)) ++
            ',' :: suf) =
          pre ++ '(' :: ((insertCommas (renderEntries es) ++ ',' :: ')' :: lab) ++ ',' :: suf)
          from by simp]
        rw [getElem?_append_cons]
        simp)
    rw [show (pre ++ (['('] : Str)).length = pre.length + 1 from by simp] at h2
    simp only [List.nil_append] at h2
    exact h2

theorem scan_entries : ∀ (es : EntryList), wfEntries es = true →
    ∀ (orig pre suf : Str) (stk : List (List RawNode)) (cur : List RawNode),
    orig = pre ++ (insertCommas (renderEntries es) ++ ',' :: suf) →
    ((if pre.length = 0 then orig.getLast? else orig[pre.length - 1]?) ≠ some ')') →
    tokRun orig pre.length (insertCommas (renderEntries es) ++ [','])
        ⟨stk, cur, pre.length, false⟩ =
      .ok ⟨stk, cur ++ entryRawList es,
        pre.length + (insertCommas (renderEntries es)).length + 1, false⟩
  | .single e => by
    intro hw orig pre suf stk cur horig hbef
    exact scan_entry e hw orig pre suf stk cur horig hbef
  | .cons e es => by
    intro hw orig pre suf stk cur horig hbef
    have hpair : wfEntry e = true ∧ wfEntries es = true := by simpa [wfEntries] using hw
    have hwe : wfEntry e = true := hpair.1
    have hwes : wfEntries es = true := hpair.2
    have hic : insertCommas (renderEntries (EntryList.cons e es)) =
        insertCommas (renderEntry e) ++ ',' :: insertCommas (renderEntries es) := by
      show insertCommas (renderEntry e ++ ',' :: renderEntries es) = _
      rw [insertCommas_append, insertCommas_cons_of_ne (by decide)]
    rw [hic] at horig ⊢
    rw [show (insertCommas (renderEntry e) ++ ',' :: insertCommas (renderEntries es)) ++
        ([','] : Str) =
      (insertCommas (renderEntry e) ++ [',']) ++ (insertCommas (renderEntries es) ++ [','])
      from by simp]
    rw [tokRun_append]
    have h1 := scan_entry e hwe orig pre (insertCommas (renderEntries es) ++ ',' :: suf) stk cur
      (by rw [horig]; simp) hbef
    rw [h1]
    simp only []
    rw [show pre.length + (insertCommas (renderEntry e) ++ ([','] : Str)).length =
        pre.length + (insertCommas (renderEntry e)).length + 1 from by simp [Nat.add_assoc]]
    have h2 := scan_entries es hwes orig (pre ++ insertCommas (renderEntry e) ++ [','])
      suf stk (cur ++ [entryRaw e])
      (by rw [horig]; simp)
      (by
        rw [if_neg (by simp : ¬((pre ++ insertCommas (renderEntry e) ++ ([','] : Str)).length = 0))]
        rw [show (pre ++ insertCommas (renderEntry e) ++ ([','] : Str)).length - 1 =
            (pre ++ insertCommas (renderEntry e)).length from by simp]
        rw [horig]
        rw [show pre ++ ((insertCommas (renderEntry e) ++ ',' :: insertCommas (renderEntries es)) ++
            ',' :: suf) =
          (pre ++ insertCommas (renderEntry e)) ++
            ',' :: (insertCommas (renderEntries es) ++ ',' :: suf) from by simp]
        rw [getElem?_append_cons]
        simp)
    rw [show (pre ++ insertCommas (renderEntry e) ++ ([','] : Str)).length =
        pre.length + (insertCommas (renderEntry e)).length + 1 from by simp [Nat.add_assoc]] at h2
    rw [h2]
    rw [show (cur ++ [entryRaw e]) ++ entryRawList es =
        cur ++ entryRawList (EntryList.cons e es) from by simp [entryRawList]]
    rw [show pre.length + (insertCommas (renderEntry e)).length + 1 +
        (insertCommas (renderEntries es)).length + 1 =
      pre.length +
        (insertCommas (renderEntry e) ++ ',' :: insertCommas (renderEntries es)).length + 1
      from by simp; omega]

end

/-- C3: for every well-formed first entry `e` — a bare label, possibly
carrying an NHX comment, or an arbitrarily nested parenthesized tree with a
trailing label — and any further well-formed comma-separated entries `es`
at the top level, `parse` returns exactly the raw node of the first entry,
the same value as parsing the first entry alone: every other top-level
entry is silently discarded (e.g. parsing `"A,B;"` or `"(A,B)x,C;"` yields
the node of the first entry only). -/
theorem parse_first_top_level_entry_only (e : Entry) (es : EntryList)
    (hw : wfEntry e = true) (hws : wfEntries es = true) :
    parse (renderEntry e ++ ',' :: (renderEntries es ++ [';'])) =
        .ok (translateNode (entryRaw e)) ∧
      parse (renderEntry e ++ [';']) = .ok (translateNode (entryRaw e)) := by
  constructor
  · have hnorm : appendBoundaries (renderEntry e ++ ',' :: (renderEntries es ++ [';'])) =
        (insertCommas (renderEntry e) ++ ',' :: insertCommas (renderEntries es)) ++ [','] := by
      unfold appendBoundaries replaceTrailingSemi
      rw [insertCommas_append, insertCommas_cons_of_ne (by decide), insertCommas_append]
      rw [show insertCommas ([';'] : Str) = [';'] from by simp [insertCommas]]
      rw [show insertCommas (renderEntry e) ++
          ',' :: (insertCommas (renderEntries es) ++ ([';'] : Str)) =
        (insertCommas (renderEntry e) ++ ',' :: insertCommas (renderEntries es)) ++ [';']
        from by simp]
      rw [List.getLast?_concat, if_pos rfl, List.dropLast_concat]
    have htok : tokenize ((insertCommas (renderEntry e) ++
        ',' :: insertCommas (renderEntries es)) ++ [',']) = .ok (some (entryRaw e)) := by
      unfold tokenize
      rw [show (insertCommas (renderEntry e) ++ ',' :: insertCommas (renderEntries es)) ++
          ([','] : Str) =
        (insertCommas (renderEntry e) ++ [',']) ++ (insertCommas (renderEntries es) ++ [','])
        from by simp]
      rw [tokRun_append]
      have h1 := scan_entry e hw
        ((insertCommas (renderEntry e) ++ [',']) ++ (insertCommas (renderEntries es) ++ [',']))
        [] (insertCommas (renderEntries es) ++ [',']) [] []
        (by simp)
        (by
          rw [if_pos (show ([] : Str).length = 0 from rfl)]
          rw [show (insertCommas (renderEntry e) ++ [',']) ++
              (insertCommas (renderEntries es) ++ ([','] : Str)) =
            ((insertCommas (renderEntry e) ++ [','] ++ insertCommas (renderEntries es)) ++ [','])
            from by simp]
          rw [List.getLast?_concat]
          simp)
      simp only [List.length_nil, List.nil_append, Nat.zero_add] at h1
      rw [h1]
      simp only []
      rw [show (0 : Nat) + (insertCommas (renderEntry e) ++ ([','] : Str)).length =
          (insertCommas (renderEntry e)).length + 1 from by simp]
      have h2 := scan_entries es hws
        ((insertCommas (renderEntry e) ++ [',']) ++ (insertCommas (renderEntries es) ++ [',']))
        (insertCommas (renderEntry e) ++ [',']) [] [] [entryRaw e]
        (by simp)
        (by
          rw [if_neg (by simp : ¬((insertCommas (renderEntry e) ++ ([','] : Str)).length = 0))]
          rw [show (insertCommas (renderEntry e) ++ ([','] : Str)).length - 1 =
              (insertCommas (renderEntry e)).length from by simp]
          rw [show (insertCommas (renderEntry e) ++ [',']) ++
              (insertCommas (renderEntries es) ++ ([','] : Str)) =
            insertCommas (renderEntry e) ++ ',' :: (insertCommas (renderEntries es) ++ [','])
            from by simp]
          rw [getElem?_append_cons]
          simp)
      rw [show (insertCommas (renderEntry e) ++ ([','] : Str)).length =
          (insertCommas (renderEntry e)).length + 1 from by simp] at h2
      rw [h2]
      simp
    unfold parse
    rw [hnorm, htok]
    rfl
  · have hnorm2 : appendBoundaries (renderEntry e ++ [';']) =
        insertCommas (renderEntry e) ++ [','] := by
      unfold appendBoundaries replaceTrailingSemi
      rw [insertCommas_append]
      rw [show insertCommas ([';'] : Str) = [';'] from by simp [insertCommas]]
      rw [List.getLast?_concat, if_pos rfl, List.dropLast_concat]
    have htok2 : tokenize (insertCommas (renderEntry e) ++ [',']) =
        .ok (some (entryRaw e)) := by
      unfold tokenize
      have h1 := scan_entry e hw (insertCommas (renderEntry e) ++ [',']) [] [] [] []
        (by simp)
        (by
          rw [if_pos (show ([] : Str).length = 0 from rfl), List.getLast?_concat]
          simp)
      simp only [List.length_nil, List.nil_append, Nat.zero_add] at h1
      rw [h1]
      simp
    unfold parse
    rw [hnorm2, htok2]
    rfl

/-- Witness for C3 at `"(A,B)x,C;"`: the first top-level entry is the tree
`(A,B)x`, the discarded second entry is `C`, and the result equals parsing
`"(A,B)x;"` alone. -/
theorem parse_first_top_level_entry_only_witness :
    parse "(A,B)x,C;".toList =
        .ok (translateNode (entryRaw (.node (.cons (.leaf "A".toList)
          (.single (.leaf "B".toList))) "x".toList))) ∧
      parse "(A,B)x;".toList =
        .ok (translateNode (entryRaw (.node (.cons (.leaf "A".toList)
          (.single (.leaf "B".toList))) "x".toList))) :=
  parse_first_top_level_entry_only
    (.node (.cons (.leaf "A".toList) (.single (.leaf "B".toList))) "x".toList)
    (.single (.leaf "C".toList)) (by decide) (by decide)

/-! Translator lemmas. -/

theorem splitChar_of_not_mem {c : Char} {s : Str} (h : c ∉ s) : splitChar c s = [s] := by
  induction s with
  | nil => rfl
  | cons x t ih =>
    simp only [List.mem_cons, not_or] at h
    simp [splitChar, Ne.symm h.1, ih h.2]

theorem splitChar_append_cons {c : Char} {xs : Str} (h : c ∉ xs) (ys : Str) :
    splitChar c (xs ++ c :: ys) = xs :: splitChar c ys := by
  induction xs with
  | nil => simp [splitChar]
  | cons x t ih =>
    simp only [List.mem_cons, not_or] at h
    simp only [List.cons_append, splitChar, List.append_eq]
    rw [if_neg (Ne.symm h.1), ih h.2]

theorem lookupField_jsSet_self (f : Fields) (k : Str) (v : TVal) :
    lookupField (jsSet f k v) k = some v := by
  induction f with
  | nil => simp [jsSet, lookupField]
  | cons p rest ih =>
    obtain ⟨k', v'⟩ := p
    by_cases h : k' = k <;> simp [jsSet, lookupField, h, ih]

theorem mem_jsSet {f : Fields} {k k' : Str} {v v' : TVal} (h : (k, v) ∈ jsSet f k' v') :
    (k, v) ∈ f ∨ v = v' := by
  induction f with
  | nil =>
    simp [jsSet] at h
    exact Or.inr h.2
  | cons p rest ih =>
    obtain ⟨a, b⟩ := p
    by_cases hak : a = k'
    · rw [jsSet, if_pos hak] at h
      rcases List.mem_cons.mp h with h1 | h1
      · simp at h1
        exact Or.inr h1.2
      · exact Or.inl (List.mem_cons_of_mem _ h1)
    · rw [jsSet, if_neg hak] at h
      rcases List.mem_cons.mp h with h1 | h1
      · exact Or.inl (List.mem_cons.mpr (Or.inl h1))
      · rcases ih h1 with h2 | h2
        · exact Or.inl (List.mem_cons_of_mem _ h2)
        · exact Or.inr h2

theorem setNameAndLength_no_colon {s : Str} (h : ':' ∉ s) (f : Fields) :
    setNameAndLength f s = jsSet (jsSet f nameKey (.vstr s)) lengthKey (.vnum (.num 0)) := by
  unfold setNameAndLength
  rw [if_neg h]
  by_cases hs : s = []
  · subst hs; simp
  · rw [if_pos hs]

theorem setNameAndLength_colon {n r : Str} (hn : ':' ∉ n) (hr : ':' ∉ r) (f : Fields) :
    setNameAndLength f (n ++ ':' :: r) =
      jsSet (jsSet f nameKey (.vstr n)) lengthKey (.vnum (parseFloat r)) := by
  unfold setNameAndLength
  rw [if_pos (by simp : ':' ∈ n ++ ':' :: r)]
  rw [splitChar_append_cons hn, splitChar_of_not_mem hr]
  rfl

theorem applyTagPair_no_eq {kv : Str} (h : '=' ∉ kv) (f : Fields) :
    applyTagPair f kv = jsSet f kv .vundef := by
  unfold applyTagPair
  rw [splitChar_of_not_mem h]
  rfl

theorem applyTagPair_one_eq {k v : Str} (hk : '=' ∉ k) (hv : '=' ∉ v) (f : Fields) :
    applyTagPair f (k ++ '=' :: v) = jsSet f k (.vstr v) := by
  unfold applyTagPair
  rw [splitChar_append_cons hk, splitChar_of_not_mem hv]
  rfl

theorem applyTagPair_two_eq {k v rest : Str} (hk : '=' ∉ k) (hv : '=' ∉ v) (f : Fields) :
    applyTagPair f (k ++ '=' :: (v ++ '=' :: rest)) = jsSet f k (.vstr v) := by
  unfold applyTagPair
  rw [splitChar_append_cons hk, splitChar_append_cons hv]
  rfl

theorem setNhxAttrs_single {t : Str} (h : ':' ∉ t) (hne : t ≠ []) (f : Fields) :
    setNhxAttrs f t = applyTagPair f t := by
  unfold setNhxAttrs
  rw [if_neg hne, splitChar_of_not_mem h]
  rfl

theorem setNhxAttrs_pair {kv rest : Str} (h1 : ':' ∉ kv) (h2 : ':' ∉ rest) (f : Fields) :
    setNhxAttrs f (kv ++ ':' :: rest) = applyTagPair (applyTagPair f kv) rest := by
  unfold setNhxAttrs
  rw [if_neg (by simp), splitChar_append_cons h1, splitChar_of_not_mem h2]
  rfl

theorem isPrefixOf_cons_ne {sep : Str} {h : Char} (hh : sep.head? = some h)
    {x : Char} (hne : h ≠ x) (t : Str) : sep.isPrefixOf (x :: t) = false := by
  rcases sep with _ | ⟨a, s⟩
  · simp at hh
  · have ha : a = h := by simpa using hh
    subst ha
    simp [List.isPrefixOf]
    intro hcon
    exact absurd hcon hne

theorem indexOfSub_of_head_not_mem {sep : Str} {h : Char} (hh : sep.head? = some h)
    {s : Str} (hs : h ∉ s) : indexOfSub sep s = none := by
  induction s with
  | nil =>
    rcases sep with _ | ⟨a, t⟩
    · simp at hh
    · simp [indexOfSub, List.isPrefixOf]
  | cons x t ih =>
    simp only [List.mem_cons, not_or] at hs
    have hpre := isPrefixOf_cons_ne hh hs.1 t
    rw [indexOfSub, if_neg (by simp [hpre]), ih hs.2]
    rfl

theorem indexOfSub_append {sep : Str} {h : Char} (hh : sep.head? = some h)
    {xs : Str} (hx : h ∉ xs) (ys : Str) :
    indexOfSub sep (xs ++ (sep ++ ys)) = some xs.length := by
  induction xs with
  | nil =>
    rcases sep with _ | ⟨a, t⟩
    · simp at hh
    · have hpre : (a :: t).isPrefixOf ((a :: t) ++ ys) = true := by
        rw [List.isPrefixOf_iff_prefix]
        exact List.prefix_append ..
      simp only [List.cons_append] at hpre
      simp only [List.nil_append, List.cons_append]
      rw [indexOfSub, if_pos hpre]
      rfl
  | cons x t ih =>
    simp only [List.mem_cons, not_or] at hx
    have hpre := isPrefixOf_cons_ne hh hx.1 (t ++ (sep ++ ys))
    rw [List.cons_append, indexOfSub, if_neg (by simp [hpre]), ih hx.2]
    rfl

theorem splitSubFuel_of_none {sep s : Str} (h : indexOfSub sep s = none) (f : Nat) :
    splitSubFuel sep f s = [s] := by
  cases f with
  | zero => rfl
  | succ n => simp [splitSubFuel, h]

theorem splitSub_marker {label attr : Str} (hl : '[' ∉ label) (ha : '[' ∉ attr) :
    splitSub nhxMarker (label ++ (nhxMarker ++ attr)) = [label, attr] := by
  have hh : nhxMarker.head? = some '[' := rfl
  have hidx : indexOfSub nhxMarker (label ++ (nhxMarker ++ attr)) = some label.length :=
    indexOfSub_append hh hl attr
  have hnone : indexOfSub nhxMarker attr = none := indexOfSub_of_head_not_mem hh ha
  unfold splitSub
  simp only [splitSubFuel, hidx]
  rw [List.take_left]
  have hdrop : (label ++ (nhxMarker ++ attr)).drop (label.length + nhxMarker.length) = attr := by
    rw [← List.append_assoc, show label.length + nhxMarker.length = (label ++ nhxMarker).length
      from (List.length_append ..).symm]
    exact drop_length_append ..
  rw [hdrop, splitSubFuel_of_none hnone]

theorem stripTrailingBracket_concat (s : Str) : stripTrailingBracket (s ++ [']']) = s := by
  unfold stripTrailingBracket
  rw [List.getLast?_concat, if_pos rfl, List.dropLast_concat]

theorem processText_marker {label attr : Str} (hl1 : ':' ∉ label) (hl2 : '[' ∉ label)
    (ha : '[' ∉ attr) (f : Fields) :
    processText f ((label ++ (nhxMarker ++ attr)) ++ [']']) =
      setNhxAttrs (jsSet (jsSet f nameKey (.vstr label)) lengthKey (.vnum (.num 0))) attr := by
  have hstrip : stripTrailingBracket (label ++ (nhxMarker ++ (attr ++ [']']))) =
      label ++ (nhxMarker ++ attr) := by
    rw [show label ++ (nhxMarker ++ (attr ++ [']'])) = (label ++ (nhxMarker ++ attr)) ++ [']']
      from by simp]
    exact stripTrailingBracket_concat ..
  simp [processText, hstrip,
    @indexOfSub_append nhxMarker '[' rfl label hl2 attr, splitSub_marker hl2 ha,
    setNameAndLength_no_colon hl1]

/-! The claims. -/

/-- C1: parsing `"(A:0.1,B:0.2,(C:0.3,D:0.4)E:0.5)F;"` yields a root named
`F` with length `0` whose children, in order, are `A` (length `0.1`), `B`
(length `0.2`) and `E` (length `0.5`), where `E` itself has exactly the two
children `C` (length `0.3`) and `D` (length `0.4`).  `mkRat p q` is the
exact rational `p / q`. -/
theorem parse_example_tree :
    parse "(A:0.1,B:0.2,(C:0.3,D:0.4)E:0.5)F;".toList =
      .ok (.vobj [
        (branchsetKey, .varr [
          .vobj [(nameKey, .vstr "A".toList), (lengthKey, .vnum (.num (mkRat 1 10)))],
          .vobj [(nameKey, .vstr "B".toList), (lengthKey, .vnum (.num (mkRat 2 10)))],
          .vobj [
            (branchsetKey, .varr [
              .vobj [(nameKey, .vstr "C".toList), (lengthKey, .vnum (.num (mkRat 3 10)))],
              .vobj [(nameKey, .vstr "D".toList), (lengthKey, .vnum (.num (mkRat 4 10)))]]),
            (nameKey, .vstr "E".toList), (lengthKey, .vnum (.num (mkRat 5 10)))]]),
        (nameKey, .vstr "F".toList), (lengthKey, .vnum (.num 0))]) := rfl

/-- C4: every field produced by merging an NHX attribute part is either a
field the node already had, a raw string, or `undefined` — never a number
(no numeric coercion of tag values).  Concretely, the tag value
`6, 7, 10` of `[&&NHX:b=6, 7, 10]` is stored verbatim (commas included) as
the string value of tag `b`, and its commas do not split the enclosing
branchset: the root keeps exactly its two children `A` and `B`. -/
theorem nhx_tag_values_raw_strings :
    (∀ (text : Str) (f : Fields) (k : Str) (v : TVal), (k, v) ∈ setNhxAttrs f text →
      (k, v) ∈ f ∨ (∃ s, v = TVal.vstr s) ∨ v = TVal.vundef) ∧
    parse "(A:0.1[&&NHX:b=6, 7, 10],B:0.2)F;".toList =
      .ok (.vobj [
        (branchsetKey, .varr [
          .vobj [(nameKey, .vstr "A".toList), (lengthKey, .vnum (.num (mkRat 1 10))),
                 ("b".toList, .vstr "6, 7, 10".toList)],
          .vobj [(nameKey, .vstr "B".toList), (lengthKey, .vnum (.num (mkRat 2 10)))]]),
        (nameKey, .vstr "F".toList), (lengthKey, .vnum (.num 0))]) := by
  constructor
  · have hval : ∀ kv : Str,
        (∃ s, (match (splitChar '=' kv).get? 1 with
          | some w => TVal.vstr w
          | none => TVal.vundef) = TVal.vstr s) ∨
        (match (splitChar '=' kv).get? 1 with
          | some w => TVal.vstr w
          | none => TVal.vundef) = TVal.vundef := by
      intro kv
      cases (splitChar '=' kv).get? 1 <;> simp
    have hfold : ∀ (kvs : List Str) (f : Fields) (k : Str) (v : TVal),
        (k, v) ∈ kvs.foldl applyTagPair f →
        (k, v) ∈ f ∨ (∃ s, v = TVal.vstr s) ∨ v = TVal.vundef := by
      intro kvs
      induction kvs with
      | nil => intro f k v h; exact Or.inl h
      | cons kv rest ih =>
        intro f k v h
        rcases ih (applyTagPair f kv) k v h with h1 | h1
        · unfold applyTagPair at h1
          rcases mem_jsSet h1 with h2 | h2
          · exact Or.inl h2
          · rcases hval kv with h3 | h3
            · obtain ⟨w, h3⟩ := h3
              exact Or.inr (Or.inl ⟨w, h2.trans h3⟩)
            · exact Or.inr (Or.inr (h2.trans h3))
        · exact Or.inr h1
    intro text f k v hmem
    unfold setNhxAttrs at hmem
    by_cases ht : text = []
    · rw [if_pos ht] at hmem
      exact Or.inl hmem
    · rw [if_neg ht] at hmem
      exact hfold _ f k v hmem
  · rfl

/-- Witness for the first (hypothesis-bearing) part of C4, at the concrete
attribute text `b=1`. -/
theorem nhx_tag_values_raw_strings_witness :
    ("b".toList, TVal.vstr "1".toList) ∈ ([] : Fields) ∨
      (∃ s, TVal.vstr "1".toList = TVal.vstr s) ∨ TVal.vstr "1".toList = TVal.vundef :=
  nhx_tag_values_raw_strings.1 "b=1".toList [] "b".toList (TVal.vstr "1".toList)
    (by rw [show setNhxAttrs [] "b=1".toList = [("b".toList, TVal.vstr "1".toList)] from rfl]
        exact List.mem_singleton.mpr rfl)

/-- C5 counterexample: the claim predicts that for the pair `a=b=c` the tag
`a` receives the entire remainder `b=c` after the first `=`; the code stores
only the segment `b` between the first and second `=`. -/
theorem tag_value_whole_remainder_counterexample :
    setNhxAttrs [] "a=b=c".toList = [("a".toList, TVal.vstr "b".toList)] ∧
      TVal.vstr "b".toList ≠ TVal.vstr "b=c".toList := by
  refine ⟨rfl, ?_⟩
  intro h
  injection h with h2
  exact absurd h2 (by decide)

/-- C5 (amended): each tag pair is split on every `=`; the key is the part
before the first `=`, and the value is the part between the first and the
second `=` — any text after a second `=` is silently discarded.  When the
pair has exactly one `=`, the value is the whole remainder. -/
theorem tag_value_between_first_and_second_eq {k v rest : Str}
    (hk1 : ':' ∉ k) (hk2 : '=' ∉ k) (hv1 : ':' ∉ v) (hv2 : '=' ∉ v)
    (hr : ':' ∉ rest) :
    setNhxAttrs [] (k ++ '=' :: (v ++ '=' :: rest)) = [(k, TVal.vstr v)] ∧
      setNhxAttrs [] (k ++ '=' :: v) = [(k, TVal.vstr v)] := by
  have hc1 : ':' ∉ k ++ '=' :: (v ++ '=' :: rest) := by
    intro hm
    rcases List.mem_append.mp hm with h | h
    · exact hk1 h
    · rcases List.mem_cons.mp h with h | h
      · exact absurd h (by decide)
      · rcases List.mem_append.mp h with h | h
        · exact hv1 h
        · rcases List.mem_cons.mp h with h | h
          · exact absurd h (by decide)
          · exact hr h
  have hc2 : ':' ∉ k ++ '=' :: v := by
    intro hm
    rcases List.mem_append.mp hm with h | h
    · exact hk1 h
    · rcases List.mem_cons.mp h with h | h
      · exact absurd h (by decide)
      · exact hv1 h
  refine ⟨?_, ?_⟩
  · rw [setNhxAttrs_single hc1 (by simp), applyTagPair_two_eq hk2 hv2]
    rfl
  · rw [setNhxAttrs_single hc2 (by simp), applyTagPair_one_eq hk2 hv2]
    rfl

/-- Witness for C5 (amended) at the pair `a=b=c` (and the one-`=` pair
`a=b`). -/
theorem tag_value_between_first_and_second_eq_witness :
    setNhxAttrs [] ("a".toList ++ '=' :: ("b".toList ++ '=' :: "c".toList)) =
        [("a".toList, TVal.vstr "b".toList)] ∧
      setNhxAttrs [] ("a".toList ++ '=' :: "b".toList) = [("a".toList, TVal.vstr "b".toList)] :=
  tag_value_between_first_and_second_eq (by decide) (by decide) (by decide) (by decide)
    (by decide)

/-- C6: a label part `n:r` whose length text `r` is not numeric sets the
node's length to the NaN sentinel instead of raising an error, and
translation of the rest of the tree proceeds: the model's translation is
total, and concretely `"(A:xyz,B:2)R;"` parses to a full tree in which `A`
has length NaN while `B` and `R` are translated normally. -/
theorem nonnumeric_length_is_nan {n r : Str} (hn : ':' ∉ n) (hr : ':' ∉ r)
    (hnan : parseFloat r = .nan) (f : Fields) :
    setNameAndLength f (n ++ ':' :: r) =
        jsSet (jsSet f nameKey (.vstr n)) lengthKey (.vnum .nan) ∧
      parse "(A:xyz,B:2)R;".toList =
        .ok (.vobj [
          (branchsetKey, .varr [
            .vobj [(nameKey, .vstr "A".toList), (lengthKey, .vnum .nan)],
            .vobj [(nameKey, .vstr "B".toList), (lengthKey, .vnum (.num (mkRat 2 1)))]]),
          (nameKey, .vstr "R".toList), (lengthKey, .vnum (.num 0))]) := by
  refine ⟨?_, rfl⟩
  rw [setNameAndLength_colon hn hr, hnan]

/-- Witness for C6 at the label part `A:xyz`. -/
theorem nonnumeric_length_is_nan_witness :
    setNameAndLength [] ("A".toList ++ ':' :: "xyz".toList) =
        jsSet (jsSet [] nameKey (.vstr "A".toList)) lengthKey (.vnum .nan) ∧
      parse "(A:xyz,B:2)R;".toList =
        .ok (.vobj [
          (branchsetKey, .varr [
            .vobj [(nameKey, .vstr "A".toList), (lengthKey, .vnum .nan)],
            .vobj [(nameKey, .vstr "B".toList), (lengthKey, .vnum (.num (mkRat 2 1)))]]),
          (nameKey, .vstr "R".toList), (lengthKey, .vnum (.num 0))]) :=
  nonnumeric_length_is_nan (by decide) (by decide) (by decide) []

/-- C7 counterexample: on the empty input string `parse` raises rather than
returning a tree — `tokenize` hands `undefined` to
`deleteParentAttr`, which throws a TypeError (modelled as `.error ()`), so
the claim that empty input completes without raising is false. -/
theorem empty_input_raises_counterexample : parse ([] : Str) = .error () := rfl

/-- C7 (amended): for the empty input string `parse` raises a TypeError
(the tokenizer's final context has an empty branchset, so `undefined`
reaches `deleteParentAttr`); an input without a trailing normalized comma
whose final context is nonempty, such as `"(A,B"`, does yield an
incomplete tree without raising. -/
theorem empty_input_raises_incomplete_input_ok :
    parse ([] : Str) = .error () ∧
      parse "(A,B".toList =
        .ok (.vobj [(nameKey, .vstr "A".toList), (lengthKey, .vnum (.num 0))]) :=
  ⟨rfl, rfl⟩

/-- C9: NHX tags are merged onto the node after its name and length are set
and after its branchset is translated, so a tag whose key is literally
`length`, `name`, or `branchset` overwrites that structural field with the
tag's raw string value (for `branchset`, discarding the translated
children). -/
theorem nhx_tags_overwrite_structural_fields (cs : List RawNode) (label v : Str)
    (hl1 : ':' ∉ label) (hl2 : '[' ∉ label)
    (hv1 : ':' ∉ v) (hv2 : '=' ∉ v) (hv3 : '[' ∉ v) :
    getField (translateNode (.node cs (some
        ((label ++ (nhxMarker ++ (lengthKey ++ '=' :: v))) ++ [']'])))) lengthKey =
      some (.vstr v) ∧
    getField (translateNode (.node cs (some
        ((label ++ (nhxMarker ++ (nameKey ++ '=' :: v))) ++ [']'])))) nameKey =
      some (.vstr v) ∧
    getField (translateNode (.node cs (some
        ((label ++ (nhxMarker ++ (branchsetKey ++ '=' :: v))) ++ [']'])))) branchsetKey =
      some (.vstr v) := by
  have key : ∀ tagKey : Str, ':' ∉ tagKey → '=' ∉ tagKey → '[' ∉ tagKey →
      getField (translateNode (.node cs (some
        ((label ++ (nhxMarker ++ (tagKey ++ '=' :: v))) ++ [']'])))) tagKey =
      some (.vstr v) := by
    intro tagKey ht1 ht2 ht3
    have hattr : '[' ∉ tagKey ++ '=' :: v := by
      intro hm
      rcases List.mem_append.mp hm with h | h
      · exact ht3 h
      · rcases List.mem_cons.mp h with h | h
        · exact absurd h (by decide)
        · exact hv3 h
    have hcolon : ':' ∉ tagKey ++ '=' :: v := by
      intro hm
      rcases List.mem_append.mp hm with h | h
      · exact ht1 h
      · rcases List.mem_cons.mp h with h | h
        · exact absurd h (by decide)
        · exact hv1 h
    simp only [translateNode]
    rw [processText_marker hl1 hl2 hattr]
    rw [setNhxAttrs_single hcolon (by simp), applyTagPair_one_eq ht2 hv2]
    simp only [getField]
    exact lookupField_jsSet_self ..
  exact ⟨key lengthKey (by decide) (by decide) (by decide),
    key nameKey (by decide) (by decide) (by decide),
    key branchsetKey (by decide) (by decide) (by decide)⟩

/-- Witness for C9 with no children, label `R` and tag value `9`. -/
theorem nhx_tags_overwrite_structural_fields_witness :
    getField (translateNode (.node [] (some
        (("R".toList ++ (nhxMarker ++ (lengthKey ++ '=' :: "9".toList))) ++ [']'])))) lengthKey =
      some (.vstr "9".toList) ∧
    getField (translateNode (.node [] (some
        (("R".toList ++ (nhxMarker ++ (nameKey ++ '=' :: "9".toList))) ++ [']'])))) nameKey =
      some (.vstr "9".toList) ∧
    getField (translateNode (.node [] (some
        (("R".toList ++ (nhxMarker ++ (branchsetKey ++ '=' :: "9".toList))) ++ [']'])))) branchsetKey =
      some (.vstr "9".toList) :=
  nhx_tags_overwrite_structural_fields [] "R".toList "9".toList (by decide) (by decide)
    (by decide) (by decide) (by decide)

/-- C10: a tag pair with no `=` (such as `flag` in `[&&NHX:flag:S=h]`) does
not raise and is not skipped: the whole pair text becomes a key whose value
is `undefined`, and the remaining pairs are still processed. -/
theorem tag_pair_without_eq_undefined (f : Fields) (kv k2 v2 : Str)
    (h1 : '=' ∉ kv) (h2 : ':' ∉ kv) (h3 : ':' ∉ k2) (h4 : '=' ∉ k2)
    (h5 : ':' ∉ v2) (h6 : '=' ∉ v2) :
    setNhxAttrs f (kv ++ ':' :: (k2 ++ '=' :: v2)) =
      jsSet (jsSet f kv TVal.vundef) k2 (TVal.vstr v2) := by
  have hrest : ':' ∉ k2 ++ '=' :: v2 := by
    intro hm
    rcases List.mem_append.mp hm with h | h
    · exact h3 h
    · rcases List.mem_cons.mp h with h | h
      · exact absurd h (by decide)
      · exact h5 h
  rw [setNhxAttrs_pair h2 hrest, applyTagPair_no_eq h1, applyTagPair_one_eq h4 h6]

/-- Witness for C10 at the attribute text `flag:S=h`. -/
theorem tag_pair_without_eq_undefined_witness :
    setNhxAttrs [] ("flag".toList ++ ':' :: ("S".toList ++ '=' :: "h".toList)) =
      jsSet (jsSet [] "flag".toList TVal.vundef) "S".toList (TVal.vstr "h".toList) :=
  tag_pair_without_eq_undefined [] "flag".toList "S".toList "h".toList (by decide) (by decide)
    (by decide) (by decide) (by decide) (by decide)

end Nhx
